import Mathlib

/-!
Shallow embedding of the orchestration and resumable-pipeline layer of the
news-please repository, together with theorems settling the frozen claims.

Embedded source files:
* `newsplease/crawler/commoncrawl.py` — class `CommonCrawler`
  (`is_wanted_record`, `process_warc_file`, `get_extracted_warc_urls`, `crawl`);
* `newsplease/crawler/commoncrawl_extractor.py` — class `CommonCrawlExtractor`
  (`__filter_record`, `__process_warc_gz_file`,
  `__register_fully_extracted_warc_file`);
* `newsplease/run.py` — class `NewsPleaseLauncher.DaemonList`
  (`add_execution`, `add_daemon`, `sort_queue`, `get_next_item`).

Modelling conventions:
* Python strings are Lean `String`s; Python string comparison (`<`, `<=`) is
  code-point lexicographic, embedded below as `lexLt` on the character list
  (Lean's builtin `String` order does not reduce in the kernel);
* Python `sub in s` (substring test) is embedded as `containsSub`;
* `datetime` values (the extractor's `pub_date` filter bounds) are totally
  ordered and only compared, so they are embedded as `Nat` timestamps;
* unix timestamps handled by `DaemonList` are embedded as `Nat` seconds: the
  source truncates every candidate with `int(_time)` before use, and all stored
  times and repetition intervals are integers, so `int(max(prev, now) + iv)
  = max(prev, int(now)) + iv`; the truncation is applied to the inputs;
* I/O effects (opening files, callbacks, logging) are either irrelevant to the
  claims or made explicit (the checkpoint log is threaded as a `List String`);
  a Python statement that raises is embedded as an `Except` error value.
-/

namespace NewsPlease

/-! ### String primitives (Python semantics) -/

/-- Code-point lexicographic strict order on character lists: the semantics of
Python's `<` on `str`. -/
def lexLt : List Char → List Char → Bool
  | [], [] => false
  | [], _ :: _ => true
  | _ :: _, [] => false
  | a :: as, b :: bs => if a < b then true else if b < a then false else lexLt as bs

/-- Python `a < b` on strings. -/
def strLt (a b : String) : Bool := lexLt a.data b.data

/-- Python `a <= b` on strings (lexicographic total order). -/
def strLe (a b : String) : Bool := !(strLt b a)

/-- Python `needle in hay` substring containment on character lists. -/
def containsSub : List Char → List Char → Bool
  | needle, [] => needle.isEmpty
  | needle, h :: t => needle.isPrefixOf (h :: t) || containsSub needle t

/-- Python `host in url` for strings: substring containment test used by the
extractor's host filter. -/
def hostInUrl (host url : String) : Bool := containsSub host.data url.data

/-! ### Record model

The minimal view of a WARC response record that the two filters inspect:
`targetURI` is the `WARC-Target-URI` header; `hostname` stands for
`urllib.parse.urlparse(targetURI).hostname` (the external URL parser applied to
that header); `warcDate` is the `warc-date` header string; `pubDate` is the
publish date of the article produced by the external extractor
(`NewsPlease.from_warc(record).pub_date`), absent when no date was detected. -/
structure WarcRecord where
  targetURI : String
  hostname : String
  warcDate : String
  pubDate : Option Nat
deriving DecidableEq

/-! ### CommonCrawler (`newsplease/crawler/commoncrawl.py`) -/

/-- Filter-relevant state of a `CommonCrawler` instance. -/
structure CommonCrawler where
  valid_hosts : List String
  start_date : String
  end_date : String
deriving DecidableEq

/-- The constructor `CommonCrawler.__init__`: an absent `start_date` defaults
to `"2019-01-01"`, an absent `end_date` to `"2099-01-01"`.  In the source,
`valid_hosts` is an optional whitespace-separated host string turned into a
list with `.split()`; the embedding takes the resulting host list directly
(`[]` for an absent argument). -/
def CommonCrawler.init (valid_hosts : List String)
    (start_date end_date : Option String) : CommonCrawler :=
  { valid_hosts := valid_hosts
    start_date := start_date.getD "2019-01-01"
    end_date := end_date.getD "2099-01-01" }

/-- `CommonCrawler.is_wanted_record`: if the host list is non-empty the parsed
hostname of the target URI must be a member, else the record is rejected; then
the `warc-date` header must satisfy `start_date <= d and d < end_date`
(Python string comparison). -/
def is_wanted_record (c : CommonCrawler) (r : WarcRecord) : Bool :=
  if c.valid_hosts ≠ [] ∧ r.hostname ∉ c.valid_hosts then false
  else strLe c.start_date r.warcDate && strLt r.warcDate c.end_date

/-- `CommonCrawler.get_extracted_warc_urls`: when the checkpoint file does not
exist it returns `[]`; when it exists, the body executes
`with open(extracted_warc_file, "r")` — the bare name `extracted_warc_file` is
unbound (the `self.` qualifier is missing), so the call raises `NameError`
before reading anything.  The file contents are therefore irrelevant and the
embedding takes only the existence flag. -/
def get_extracted_warc_urls (log_file_exists : Bool) : Except String (List String) :=
  if log_file_exists then .error "NameError: extracted_warc_file is not defined"
  else .ok []

/-- The URL-selection part of `CommonCrawler.crawl`: read the checkpoint log
via `get_extracted_warc_urls`, prepend the base URL to every index name, and
keep exactly those URLs that are not in the extracted list (the skipped ones
are only logged).  The returned list is what is handed to the worker pool. -/
def crawl_pending_urls (base : String) (warc_names : List String)
    (log_file_exists : Bool) : Except String (List String) :=
  match get_extracted_warc_urls log_file_exists with
  | .error e => .error e
  | .ok extracted =>
      .ok ((warc_names.map (fun n => base ++ n)).filter (fun u => u ∉ extracted))

/-! ### CommonCrawlExtractor (`newsplease/crawler/commoncrawl_extractor.py`) -/

/-- Filter and iteration configuration of a `CommonCrawlExtractor`
(the fields set by `extract_from_commoncrawl`). -/
structure CCEConfig where
  valid_hosts : List String
  start_date : Option Nat
  end_date : Option Nat
  strict_date : Bool
  continue_after_error : Bool
deriving DecidableEq

/-- Python `article.pub_date < self.__filter_start_date` guarded by the bound
being set: true when a start bound exists and the article date is before it. -/
def pubBeforeStart (start : Option Nat) (d : Nat) : Bool :=
  match start with
  | some s => d < s
  | none => false

/-- Python `article.pub_date > self.__filter_end_date` guarded by the bound
being set: true when an end bound exists and the article date is after it. -/
def pubAfterEnd (e : Option Nat) (d : Nat) : Bool :=
  match e with
  | some e => e < d
  | none => false

/-- `CommonCrawlExtractor.__filter_record`.  Host block: when the host list is
non-empty, some configured host must occur as a *substring* of the record's
target URI (`if valid_host in url`), otherwise `(False, article)` is returned.
Date block: entered only when a start or end bound is configured; the article
is then materialised (`NewsPlease.from_warc`) and its `pub_date` — the
`pubDate` field of the record view — is checked: a missing date is rejected
exactly when `strict_date` is set, a present date is rejected when it lies
before the start bound or after the end bound.  The embedding returns only the
boolean component of the source's `(bool, article)` pair. -/
def filter_record (cfg : CCEConfig) (r : WarcRecord) : Bool :=
  if !cfg.valid_hosts.isEmpty
      && !cfg.valid_hosts.any (fun h => hostInUrl h r.targetURI) then
    false
  else if cfg.start_date.isSome || cfg.end_date.isSome then
    match r.pubDate with
    | none => !cfg.strict_date
    | some d =>
        if pubBeforeStart cfg.start_date d then false
        else if pubAfterEnd cfg.end_date d then false
        else true
  else true

/-- The counters of `__process_warc_gz_file`:
`article_total`, `article_passed`, `article_discarded`, `article_error`. -/
structure Stats where
  total : Nat
  passed : Nat
  discarded : Nat
  error : Nat
deriving DecidableEq

/-- One event of the record iteration, as far as the loop body distinguishes
them: `other` is a record with `rec_type != "response"` (skipped before any
counter is touched); `response r` is a response record whose filtering and
extraction complete without raising; `errorRecord` is a response record whose
processing raises inside the per-record `try` block (after `article_total` was
already incremented — the increment is the first statement under the
`response` branch). -/
inductive RecEvent where
  | other
  | response (r : WarcRecord)
  | errorRecord
deriving DecidableEq

/-- The record-iteration loop of `__process_warc_gz_file`: response records
increment `total` and then either `passed` (filter accepted, article handed to
the `on_article_extracted` callback) or `discarded`; a raising record is
caught by the bare `except:` — with `continue_after_error` set it increments
`error` and iteration proceeds, otherwise the exception is re-raised, aborting
the loop (`Except.error`). -/
def processLoop (cfg : CCEConfig) : List RecEvent → Stats → Except Unit Stats
  | [], st => .ok st
  | .other :: rest, st => processLoop cfg rest st
  | .response r :: rest, st =>
      let st := { st with total := st.total + 1 }
      let st :=
        if filter_record cfg r then { st with passed := st.passed + 1 }
        else { st with discarded := st.discarded + 1 }
      processLoop cfg rest st
  | .errorRecord :: rest, st =>
      let st := { st with total := st.total + 1 }
      if cfg.continue_after_error then
        processLoop cfg rest { st with error := st.error + 1 }
      else .error ()

/-- `CommonCrawlExtractor.__process_warc_gz_file`, with the checkpoint log
threaded explicitly (second component of the result; the source's
`__register_fully_extracted_warc_file` opens the log file in append mode and
writes `warc_url`).  After the loop the source computes
`secs_per_article = (time.time() - start_time) / article_total`; when
`article_total` is `0` this raises `ZeroDivisionError`, so the function aborts
before the log write.  An aborted run (a propagated per-record error or the
zero division) leaves the log unchanged; a completed run appends `warc_url`
once, after the iteration.  (The `os.remove` of the local WARC file and the
completion callback carry no claim-relevant state and are not modelled.) -/
def process_warc_gz_file (cfg : CCEConfig) (log : List String) (warc_url : String)
    (records : List RecEvent) : Except String Stats × List String :=
  match processLoop cfg records ⟨0, 0, 0, 0⟩ with
  | .error _ => (.error "per-record error propagated", log)
  | .ok st =>
      if st.total = 0 then (.error "ZeroDivisionError", log)
      else (.ok st, log ++ [warc_url])

/-! ### DaemonList (`newsplease/run.py`, class `NewsPleaseLauncher.DaemonList`) -/

/-- State of a `DaemonList`: `daemons` is the Python dict mapping a site index
to its repetition interval in seconds, kept as an association list in insertion
order; `queue` holds the pending `(timestamp, index)` pairs and `queue_times`
mirrors the pending timestamps. -/
structure DaemonList where
  daemons : List (Nat × Nat)
  queue : List (Nat × Nat)
  queue_times : List Nat
  graceful_stop : Bool
deriving DecidableEq

/-- The fresh state built by `DaemonList.__init__` (`queue = []`; the
class-level `daemons`, `queue_times` and `graceful_stop` defaults are empty /
false; a launcher run owns a single instance). -/
def initDaemonList : DaemonList := ⟨[], [], [], false⟩

/-- Python dict assignment `d[k] = v` on the association list. -/
def dictSet (d : List (Nat × Nat)) (k v : Nat) : List (Nat × Nat) :=
  if d.any (fun p => p.1 == k) then d.map (fun p => if p.1 == k then (k, v) else p)
  else d ++ [(k, v)]

/-- Python dict lookup `d[k]`.  `get_next_item` only looks up indices that
`add_daemon` registered (a missing key would raise `KeyError`), so the default
`0` of the embedding is never exercised on the traces considered here. -/
def dictGet (d : List (Nat × Nat)) (k : Nat) : Nat :=
  ((d.find? (fun p => p.1 == k)).map Prod.snd).getD 0

/-- The collision loop of `add_execution`:
`while _time in self.queue_times: _time += 1`.  The recursion is paid for with
fuel; `queue_times.length + 1` steps always suffice (`findSlot_spec` below). -/
def findSlot : Nat → List Nat → Nat → Nat
  | 0, _, t => t
  | fuel + 1, times, t => if t ∈ times then findSlot fuel times (t + 1) else t

/-- The slot at which `add_execution` actually files a candidate time `t`. -/
def newSlot (s : DaemonList) (t : Nat) : Nat :=
  findSlot (s.queue_times.length + 1) s.queue_times t

/-- `DaemonList.add_execution`: truncate the candidate to integer seconds
(`_time = int(_time)`; the embedding's candidate is already the truncated
value), shift it up by whole seconds while it collides with a pending
timestamp, then append it to `queue_times` and `(time, index)` to `queue`. -/
def add_execution (s : DaemonList) (t index : Nat) : DaemonList :=
  { s with
    queue_times := s.queue_times ++ [newSlot s t]
    queue := s.queue ++ [(newSlot s t, index)] }

/-- `DaemonList.add_daemon`: record the repetition interval in `daemons`, then
schedule a first execution at the current time (`time.time()`, passed here as
the truncated `now`). -/
def add_daemon (s : DaemonList) (index interval now : Nat) : DaemonList :=
  add_execution { s with daemons := dictSet s.daemons index interval } now index

/-- Sort key of `sort_queue`: `sorted(self.queue, key=lambda t: t[0])`. -/
def timeLe (a b : Nat × Nat) : Prop := a.1 ≤ b.1

instance : DecidableRel timeLe := fun a b => Nat.decLe a.1 b.1

instance : IsTotal (Nat × Nat) timeLe := ⟨fun a b => Nat.le_total a.1 b.1⟩

instance : IsTrans (Nat × Nat) timeLe := ⟨fun _ _ _ => Nat.le_trans⟩

/-- `DaemonList.sort_queue`: stable-sort `queue` by the first component and
`queue_times` by value (Python's `sorted` is a stable sort, as is
`List.insertionSort`). -/
def sort_queue (s : DaemonList) : DaemonList :=
  { s with
    queue := List.insertionSort timeLe s.queue
    queue_times := List.insertionSort (· ≤ ·) s.queue_times }

/-- `DaemonList.get_next_item`: on `graceful_stop` return `None`; otherwise
sort, pop the first queue entry and the first pending time, and re-register
the popped job at candidate `max(prev_time, time.time()) + self.daemons[idx]`
(`now` is `time.time()` truncated to seconds; all stored times and intervals
are integers, so the truncation of the candidate commutes to the arguments).
Popping an empty queue raises `IndexError` in the source; the embedding
returns `None` there, and none of the theorems exercise that branch. -/
def get_next_item (s : DaemonList) (now : Nat) : Option (Nat × Nat) × DaemonList :=
  if s.graceful_stop then (none, s)
  else
    let s := sort_queue s
    match s.queue, s.queue_times with
    | item :: qrest, prev_time :: trest =>
        let s' : DaemonList := { s with queue := qrest, queue_times := trest }
        (some item, add_execution s' (max prev_time now + dictGet s'.daemons item.2) item.2)
    | _, _ => (none, s)

/-- One externally triggered operation on a `DaemonList`: a registration
(`add_daemon`, performed by `manage_crawlers` at the site's registration time)
or a pop (`get_next_item`, performed by a `manage_daemon` thread at time
`now`). -/
inductive DOp where
  | addDaemon (index interval now : Nat)
  | pop (now : Nat)
deriving DecidableEq

/-- Apply one operation to the state (the popped item, if any, is dropped). -/
def applyOp (s : DaemonList) : DOp → DaemonList
  | .addDaemon index interval now => add_daemon s index interval now
  | .pop now => (get_next_item s now).2

/-- Run a sequence of operations from a starting state. -/
def runOps (s : DaemonList) : List DOp → DaemonList
  | [] => s
  | op :: ops => runOps (applyOp s op) ops

/-- The entries returned for dispatch along a sequence of operations. -/
def popsOf (s : DaemonList) : List DOp → List (Nat × Nat)
  | [] => []
  | .addDaemon index interval now :: ops => popsOf (add_daemon s index interval now) ops
  | .pop now :: ops =>
      match get_next_item s now with
      | (some item, s') => item :: popsOf s' ops
      | (none, s') => popsOf s' ops

/-- Entries returned by a run of pops only (each at its given `now`). -/
def iterPops (s : DaemonList) : List Nat → List (Nat × Nat)
  | [] => []
  | now :: rest =>
      match get_next_item s now with
      | (some item, s') => item :: iterPops s' rest
      | (none, s') => iterPops s' rest

/-- Structural invariant of a `DaemonList`: the pending-times mirror is exact
and holds no duplicate timestamp. -/
def WF (s : DaemonList) : Prop :=
  s.queue_times = s.queue.map Prod.fst ∧ s.queue_times.Nodup

/-! ### Helper lemmas about the collision loop and the invariant -/

theorem filter_ge_succ_length_lt {t : Nat} {times : List Nat} (h : t ∈ times) :
    (times.filter (fun x => decide (t + 1 ≤ x))).length <
      (times.filter (fun x => decide (t ≤ x))).length := by
  induction times with
  | nil => cases h
  | cons a l ih =>
    by_cases hta : t + 1 ≤ a
    · have ht : t ≤ a := Nat.le_of_succ_le hta
      have h' : t ∈ l := by
        rcases List.mem_cons.mp h with rfl | h'
        · exact absurd hta (Nat.not_succ_le_self _)
        · exact h'
      simpa [List.filter_cons, hta, ht] using Nat.succ_lt_succ (ih h')
    · by_cases ht : t ≤ a
      · have hsub : List.Sublist (l.filter (fun x => decide (t + 1 ≤ x)))
            (l.filter (fun x => decide (t ≤ x))) :=
          List.monotone_filter_right l (fun x hx => by
            simp only [decide_eq_true_eq] at hx ⊢
            exact Nat.le_of_succ_le hx)
        have hlen := hsub.length_le
        simp [List.filter_cons, hta, ht]
        omega
      · have h' : t ∈ l := by
          rcases List.mem_cons.mp h with rfl | h'
          · exact absurd (Nat.le_refl t) ht
          · exact h'
        simpa [List.filter_cons, hta, ht] using ih h'

theorem findSlot_spec : ∀ (fuel : Nat) (times : List Nat) (t : Nat),
    (times.filter (fun x => decide (t ≤ x))).length < fuel →
    findSlot fuel times t ∉ times ∧ t ≤ findSlot fuel times t ∧
      ∀ u, t ≤ u → u < findSlot fuel times t → u ∈ times := by
  intro fuel
  induction fuel with
  | zero => exact fun times t h => absurd h (Nat.not_lt_zero _)
  | succ fuel ih =>
    intro times t h
    by_cases hmem : t ∈ times
    · have hlt : (times.filter (fun x => decide (t + 1 ≤ x))).length < fuel :=
        Nat.lt_of_lt_of_le (filter_ge_succ_length_lt hmem) (Nat.lt_succ_iff.mp h)
      obtain ⟨h1, h2, h3⟩ := ih times (t + 1) hlt
      refine ⟨by simpa [findSlot, hmem] using h1,
        by simpa [findSlot, hmem] using Nat.le_of_succ_le h2, ?_⟩
      intro u hu hu'
      rcases Nat.eq_or_lt_of_le hu with rfl | h'
      · exact hmem
      · exact h3 u h' (by simpa [findSlot, hmem] using hu')
    · refine ⟨by simp [findSlot, hmem], by simp [findSlot, hmem], ?_⟩
      intro u hu hu'
      simp only [findSlot, hmem, if_false] at hu'
      exact absurd (Nat.lt_of_le_of_lt hu hu') (Nat.lt_irrefl _)

theorem newSlot_spec (s : DaemonList) (t : Nat) :
    newSlot s t ∉ s.queue_times ∧ t ≤ newSlot s t ∧
      ∀ u, t ≤ u → u < newSlot s t → u ∈ s.queue_times :=
  findSlot_spec _ _ _ (Nat.lt_succ_of_le (List.length_filter_le _ _))

theorem WF_add_execution {s : DaemonList} (h : WF s) (t index : Nat) :
    WF (add_execution s t index) := by
  obtain ⟨h1, h2⟩ := h
  refine ⟨by simp [add_execution, h1], ?_⟩
  have hnot := (newSlot_spec s t).1
  simp only [add_execution, List.nodup_append, List.nodup_cons, List.nodup_nil,
    List.disjoint_singleton]
  exact ⟨h2, by simp, hnot⟩

theorem WF_daemons {s : DaemonList} (h : WF s) (d : List (Nat × Nat)) :
    WF { s with daemons := d } := h

theorem WF_add_daemon {s : DaemonList} (h : WF s) (index interval now : Nat) :
    WF (add_daemon s index interval now) :=
  WF_add_execution (WF_daemons h _) _ _

theorem sort_queue_sorted (s : DaemonList) :
    List.Sorted timeLe (sort_queue s).queue := List.sorted_insertionSort _ _

theorem sort_queue_queue_perm (s : DaemonList) :
    List.Perm (sort_queue s).queue s.queue := List.perm_insertionSort _ _

theorem WF_sort_queue {s : DaemonList} (h : WF s) : WF (sort_queue s) := by
  obtain ⟨h1, h2⟩ := h
  have hperm : List.Perm (List.insertionSort (· ≤ ·) s.queue_times) s.queue_times :=
    List.perm_insertionSort _ _
  refine ⟨?_, hperm.symm.nodup h2⟩
  apply List.eq_of_perm_of_sorted (r := fun a b : Nat => a ≤ b)
  · refine hperm.trans ?_
    rw [h1]
    exact ((List.perm_insertionSort timeLe s.queue).map Prod.fst).symm
  · exact List.sorted_insertionSort _ _
  · exact List.Pairwise.map Prod.fst (fun _ _ hab => hab) (sort_queue_sorted s)

theorem sorted_times_cons {s : DaemonList} (h : WF s) {item : Nat × Nat}
    {qrest : List (Nat × Nat)} (hq : (sort_queue s).queue = item :: qrest) :
    (sort_queue s).queue_times = item.1 :: qrest.map Prod.fst := by
  rw [(WF_sort_queue h).1, hq]
  rfl

theorem get_next_item_eq {s : DaemonList} (h : WF s) (hstop : s.graceful_stop = false)
    {item : Nat × Nat} {qrest : List (Nat × Nat)}
    (hq : (sort_queue s).queue = item :: qrest) (now : Nat) :
    get_next_item s now =
      (some item,
        add_execution ⟨s.daemons, qrest, qrest.map Prod.fst, s.graceful_stop⟩
          (max item.1 now + dictGet s.daemons item.2) item.2) := by
  have ht := sorted_times_cons h hq
  have hd : (sort_queue s).daemons = s.daemons := rfl
  have hg : (sort_queue s).graceful_stop = s.graceful_stop := rfl
  simp only [get_next_item, hstop, Bool.false_eq_true, if_false, hq, ht, hd, hg]

theorem get_next_item_nil {s : DaemonList} (h : WF s) (hstop : s.graceful_stop = false)
    (hq : (sort_queue s).queue = []) (now : Nat) :
    get_next_item s now = (none, sort_queue s) := by
  have ht : (sort_queue s).queue_times = [] := by rw [(WF_sort_queue h).1, hq]; rfl
  simp only [get_next_item, hstop, Bool.false_eq_true, if_false, hq, ht]

theorem WF_get_next_item {s : DaemonList} (h : WF s) (now : Nat) :
    WF (get_next_item s now).2 := by
  by_cases hstop : s.graceful_stop = true
  · simpa [get_next_item, hstop] using h
  · have hstop' : s.graceful_stop = false := by
      cases hb : s.graceful_stop
      · rfl
      · exact absurd hb hstop
    match hq : (sort_queue s).queue with
    | [] => rw [get_next_item_nil h hstop' hq now]; exact WF_sort_queue h
    | item :: qrest =>
        rw [get_next_item_eq h hstop' hq now]
        refine WF_add_execution ⟨rfl, ?_⟩ _ _
        have := (WF_sort_queue h).2
        rw [sorted_times_cons h hq] at this
        exact this.of_cons

theorem WF_applyOp {s : DaemonList} (h : WF s) (op : DOp) : WF (applyOp s op) := by
  cases op with
  | addDaemon index interval now => exact WF_add_daemon h index interval now
  | pop now => exact WF_get_next_item h now

theorem WF_runOps : ∀ (ops : List DOp) (s : DaemonList), WF s → WF (runOps s ops)
  | [], _, h => h
  | op :: ops, s, h => WF_runOps ops (applyOp s op) (WF_applyOp h op)

theorem pop_min {s : DaemonList} (h : WF s) {now : Nat} {item : Nat × Nat}
    {s' : DaemonList} (heq : get_next_item s now = (some item, s')) :
    ∀ e ∈ s.queue, item.1 ≤ e.1 := by
  by_cases hstop : s.graceful_stop = true
  · simp [get_next_item, hstop] at heq
  · have hstop' : s.graceful_stop = false := by
      cases hb : s.graceful_stop
      · rfl
      · exact absurd hb hstop
    match hq : (sort_queue s).queue with
    | [] => rw [get_next_item_nil h hstop' hq now] at heq; simp at heq
    | it :: qrest =>
        rw [get_next_item_eq h hstop' hq now] at heq
        injection heq with h1 h2
        injection h1 with h1
        subst h1
        intro e he
        have he' : e ∈ (sort_queue s).queue := ((sort_queue_queue_perm s).mem_iff).mpr he
        rw [hq] at he'
        rcases List.mem_cons.mp he' with rfl | he''
        · exact Nat.le_refl _
        · exact List.rel_of_sorted_cons (hq ▸ sort_queue_sorted s) e he''

theorem iterPops_bound : ∀ (nows : List Nat) (s : DaemonList) (m : Nat), WF s →
    (∀ e ∈ s.queue, m ≤ e.1) →
    (∀ p ∈ iterPops s nows, m ≤ p.1) ∧
      List.Chain' (· ≤ ·) ((iterPops s nows).map Prod.fst) := by
  intro nows
  induction nows with
  | nil => simp [iterPops]
  | cons now rest ih =>
    intro s m hWF hlb
    by_cases hstop : s.graceful_stop = true
    · have : get_next_item s now = (none, s) := by simp [get_next_item, hstop]
      simpa [iterPops, this] using ih s m hWF hlb
    · have hstop' : s.graceful_stop = false := by
        cases hb : s.graceful_stop
        · rfl
        · exact absurd hb hstop
      match hq : (sort_queue s).queue with
      | [] =>
          have hnone := get_next_item_nil hWF hstop' hq now
          have hlb' : ∀ e ∈ (sort_queue s).queue, m ≤ e.1 := by rw [hq]; simp
          simpa [iterPops, hnone] using ih (sort_queue s) m (WF_sort_queue hWF) hlb'
      | item :: qrest =>
          have heq := get_next_item_eq hWF hstop' hq now
          have hmitem : m ≤ item.1 := by
            refine hlb item ?_
            exact ((sort_queue_queue_perm s).mem_iff).mp (hq ▸ List.mem_cons_self item qrest)
          have hWFmid : WF (⟨s.daemons, qrest, qrest.map Prod.fst, s.graceful_stop⟩ :
              DaemonList) := by
            refine ⟨rfl, ?_⟩
            have := (WF_sort_queue hWF).2
            rw [sorted_times_cons hWF hq] at this
            exact this.of_cons
          have hlb' : ∀ e ∈ (add_execution
              ⟨s.daemons, qrest, qrest.map Prod.fst, s.graceful_stop⟩
              (max item.1 now + dictGet s.daemons item.2) item.2).queue, item.1 ≤ e.1 := by
            intro e he
            simp only [add_execution, List.mem_append, List.mem_singleton] at he
            rcases he with he | rfl
            · exact List.rel_of_sorted_cons (hq ▸ sort_queue_sorted s) e he
            · have hge := (newSlot_spec
                ⟨s.daemons, qrest, qrest.map Prod.fst, s.graceful_stop⟩
                (max item.1 now + dictGet s.daemons item.2)).2.1
              calc item.1 ≤ max item.1 now := Nat.le_max_left _ _
                _ ≤ max item.1 now + dictGet s.daemons item.2 := Nat.le_add_right _ _
                _ ≤ _ := hge
          obtain ⟨ihall, ihchain⟩ := ih _ item.1
            (WF_add_execution hWFmid _ _) hlb'
          refine ⟨?_, ?_⟩
          · intro p hp
            simp only [iterPops, heq] at hp
            rcases List.mem_cons.mp hp with rfl | hp'
            · exact hmitem
            · exact Nat.le_trans hmitem (ihall p hp')
          · simp only [iterPops, heq, List.map_cons]
            refine List.chain'_cons'.mpr ⟨?_, ihchain⟩
            intro b hb
            have hb' := List.mem_of_mem_head? hb
            obtain ⟨p, hp, rfl⟩ := List.mem_map.mp hb'
            exact ihall p hp

/-! ### Claim theorems -/

/-- C1: the extraction pipeline has no division-by-zero guard — on an archive
with zero response records the run does not complete with an absent metric;
it computes `(time.time() - start_time) / article_total` with
`article_total = 0` and aborts with `ZeroDivisionError` before checkpointing. -/
theorem process_zero_records_divides_by_zero :
    process_warc_gz_file ⟨[], none, none, true, true⟩ []
      "https://commoncrawl.s3.amazonaws.com/a.warc.gz" [.other]
      = (.error "ZeroDivisionError", []) := rfl

/-- C2: when the checkpoint log file already exists, a fresh run's crawl does
not read it and schedule the remaining URLs — `get_extracted_warc_urls` opens
the unbound bare name `extracted_warc_file` (missing `self.`) and the crawl
aborts with `NameError` instead. -/
theorem crawl_NameError_on_existing_log :
    crawl_pending_urls "https://commoncrawl.s3.amazonaws.com/"
      ["crawl-data/CC-NEWS/a.warc.gz"] true
      = .error "NameError: extracted_warc_file is not defined" := rfl

/-- C3, counterexample: a record whose target host (`g.co`) is not a member of
the non-empty configured host set `{facebook.com}` is nevertheless accepted by
the extractor's `__filter_record`, because the configured host occurs as a
substring of the record's URL. -/
theorem host_substring_counterexample :
    ("g.co" ∉ (["facebook.com"] : List String)) ∧
    filter_record ⟨["facebook.com"], none, none, true, true⟩
      ⟨"http://g.co/?forward_url=facebook.com", "g.co", "", none⟩ = true :=
  ⟨by decide, by decide⟩

/-- C3, amended: `CommonCrawler.is_wanted_record` rejects every record whose
parsed hostname is not a member of a non-empty host set, regardless of date;
the extractor's `__filter_record` instead rejects exactly the records whose
URL contains no configured host as a substring — a record whose host is not a
member can still be accepted when a configured host occurs elsewhere in the
URL. -/
theorem host_not_member_rejected_amended :
    (∀ (c : CommonCrawler) (r : WarcRecord), c.valid_hosts ≠ [] →
      r.hostname ∉ c.valid_hosts → is_wanted_record c r = false) ∧
    (∀ (cfg : CCEConfig) (r : WarcRecord), cfg.valid_hosts ≠ [] →
      (∀ h ∈ cfg.valid_hosts, hostInUrl h r.targetURI = false) →
      filter_record cfg r = false) := by
  constructor
  · intro c r h1 h2
    unfold is_wanted_record
    rw [if_pos ⟨h1, h2⟩]
  · intro cfg r h1 h2
    have hany : cfg.valid_hosts.any (fun h => hostInUrl h r.targetURI) = false := by
      rw [List.any_eq_false]
      intro x hx
      simp [h2 x hx]
    have hne : cfg.valid_hosts.isEmpty = false := by
      cases hl : cfg.valid_hosts
      · exact absurd hl h1
      · rfl
    unfold filter_record
    rw [hne, hany]
    rfl

theorem host_not_member_rejected_witness :
    is_wanted_record ⟨["example.com"], "2019-01-01", "2099-01-01"⟩
      ⟨"http://other.com/", "other.com", "2019-06-01", none⟩ = false ∧
    filter_record ⟨["example.com"], none, none, true, true⟩
      ⟨"http://other.org/", "other.org", "", none⟩ = false :=
  ⟨host_not_member_rejected_amended.1 _ _ (by decide) (by decide),
   host_not_member_rejected_amended.2 _ _ (by decide) (by decide)⟩

/-- C4, counterexample: with `CommonCrawler` criteria
`start = "2019-08-01"`, `end = "2019-08-02"`, the timestamp `"2019-08-02"`
lies in the closed interval `[start, end]` (both comparisons hold) but the
record is rejected: `is_wanted_record` requires `d < end_date`, so the end
bound is exclusive, not inclusive. -/
theorem endDate_exclusive_counterexample :
    (strLe (CommonCrawler.init [] (some "2019-08-01") (some "2019-08-02")).start_date
        "2019-08-02" = true ∧
     strLe "2019-08-02"
        (CommonCrawler.init [] (some "2019-08-01") (some "2019-08-02")).end_date = true) ∧
    is_wanted_record (CommonCrawler.init [] (some "2019-08-01") (some "2019-08-02"))
      ⟨"http://example.com/a", "example.com", "2019-08-02", none⟩ = false :=
  ⟨⟨by decide, by decide⟩, by decide⟩

/-- C4, amended: the two date checks differ. The extractor's `__filter_record`
accepts a record with an obtainable date exactly when the date lies in the
closed interval (each configured bound inclusive); `CommonCrawler`'s
`is_wanted_record` accepts exactly when `start_date <= d` and `d < end_date`
— start inclusive, end exclusive. -/
theorem date_interval_semantics_amended :
    (∀ (c : CommonCrawler) (r : WarcRecord), c.valid_hosts = [] →
      (is_wanted_record c r = true ↔
        (strLe c.start_date r.warcDate = true ∧ strLt r.warcDate c.end_date = true))) ∧
    (∀ (cfg : CCEConfig) (r : WarcRecord) (d : Nat), cfg.valid_hosts = [] →
      r.pubDate = some d → (cfg.start_date.isSome ∨ cfg.end_date.isSome) →
      (filter_record cfg r = true ↔
        ((∀ s, cfg.start_date = some s → s ≤ d) ∧
         (∀ e, cfg.end_date = some e → d ≤ e)))) := by
  constructor
  · intro c r h
    unfold is_wanted_record
    rw [if_neg (by simp [h])]
    rw [Bool.and_eq_true]
  · intro cfg r d hhost hd hsome
    have hempty : cfg.valid_hosts.isEmpty = true := by rw [hhost]; rfl
    have hs2 : (cfg.start_date.isSome || cfg.end_date.isSome) = true := by
      rcases hsome with h | h <;> simp [h]
    simp only [filter_record, hempty, Bool.not_true, Bool.false_and,
      Bool.false_eq_true, if_false, hs2, if_true, hd]
    rcases hs : cfg.start_date with _ | s <;> rcases he : cfg.end_date with _ | e <;>
      simp [pubBeforeStart, pubAfterEnd, Nat.not_lt]

theorem date_interval_semantics_witness :
    is_wanted_record ⟨[], "2019-08-01", "2019-08-02"⟩
      ⟨"http://example.com/a", "example.com", "2019-08-01T12:00:00Z", none⟩ = true ∧
    filter_record ⟨[], some 5, some 9, true, true⟩ ⟨"u", "h", "", some 5⟩ = true :=
  ⟨(date_interval_semantics_amended.1 _ _ rfl).mpr ⟨by decide, by decide⟩,
   (date_interval_semantics_amended.2 ⟨[], some 5, some 9, true, true⟩
      ⟨"u", "h", "", some 5⟩ 5 rfl rfl (Or.inl rfl)).mpr
     ⟨fun s hs => by injection hs with h; omega,
      fun e he => by injection he with h; omega⟩⟩

/-- C5: a per-record failure inside the iteration increments the error counter
by one and continues with the next record when `continue_after_error` is set;
when it is not set the loop aborts at that record and the error propagates to
the caller (wherever in the record list the failing record sits). -/
theorem per_record_error_policy :
    ∀ (cfg : CCEConfig) (rest : List RecEvent) (st : Stats),
      (cfg.continue_after_error = true →
        processLoop cfg (.errorRecord :: rest) st =
          processLoop cfg rest
            { st with total := st.total + 1, error := st.error + 1 }) ∧
      (cfg.continue_after_error = false →
        processLoop cfg (.errorRecord :: rest) st = .error ()) ∧
      (cfg.continue_after_error = false → ∀ (recs : List RecEvent) (st2 : Stats),
        .errorRecord ∈ recs → processLoop cfg recs st2 = .error ()) := by
  intro cfg rest st
  refine ⟨fun h => by simp [processLoop, h], fun h => by simp [processLoop, h], ?_⟩
  intro h recs
  induction recs with
  | nil => intro st2 hmem; cases hmem
  | cons r rs ih =>
    intro st2 hmem
    cases r with
    | other =>
        rcases List.mem_cons.mp hmem with h' | h'
        · cases h'
        · simpa [processLoop] using ih st2 h'
    | response rr =>
        rcases List.mem_cons.mp hmem with h' | h'
        · cases h'
        · simp only [processLoop]
          split <;> exact ih _ h'
    | errorRecord => simp [processLoop, h]

theorem per_record_error_policy_witness :
    processLoop ⟨[], none, none, true, true⟩ [.errorRecord] ⟨0, 0, 0, 0⟩ =
      processLoop ⟨[], none, none, true, true⟩ [] ⟨1, 0, 0, 1⟩ ∧
    processLoop ⟨[], none, none, true, false⟩ [.errorRecord] ⟨0, 0, 0, 0⟩ = .error () :=
  ⟨(per_record_error_policy ⟨[], none, none, true, true⟩ [] ⟨0, 0, 0, 0⟩).1 rfl,
   (per_record_error_policy ⟨[], none, none, true, false⟩ [] ⟨0, 0, 0, 0⟩).2.1 rfl⟩

/-- C6, counterexample: on an archive with zero records the record iteration
completes normally (`processLoop` returns `ok`), yet the URL is not appended —
the run aborts on the throughput division before reaching the checkpoint
write, so "appended iff the record iteration completed normally" fails. -/
theorem checkpoint_zero_record_counterexample :
    processLoop ⟨[], none, none, true, true⟩ ([] : List RecEvent) ⟨0, 0, 0, 0⟩
        = .ok ⟨0, 0, 0, 0⟩ ∧
    process_warc_gz_file ⟨[], none, none, true, true⟩ ["done.warc.gz"] "new.warc.gz" []
        = (.error "ZeroDivisionError", ["done.warc.gz"]) := ⟨rfl, rfl⟩

/-- C6, amended: the URL is appended exactly once, after the iteration, iff
the record iteration completes normally AND at least one response record was
counted (otherwise the post-loop throughput division raises first); every
aborted run — a propagated per-record error or the zero-record division —
leaves the checkpoint log unchanged. -/
theorem checkpoint_append_iff_completion :
    ∀ (cfg : CCEConfig) (log : List String) (url : String) (records : List RecEvent),
      (∀ st, processLoop cfg records ⟨0, 0, 0, 0⟩ = .ok st → 0 < st.total →
        process_warc_gz_file cfg log url records = (.ok st, log ++ [url])) ∧
      (processLoop cfg records ⟨0, 0, 0, 0⟩ = .error () →
        (process_warc_gz_file cfg log url records).2 = log) ∧
      (∀ st, processLoop cfg records ⟨0, 0, 0, 0⟩ = .ok st → st.total = 0 →
        (process_warc_gz_file cfg log url records).2 = log) := by
  intro cfg log url records
  refine ⟨?_, ?_, ?_⟩
  · intro st hloop hpos
    have hne : st.total ≠ 0 := Nat.pos_iff_ne_zero.mp hpos
    simp [process_warc_gz_file, hloop, hne]
  · intro hloop
    simp [process_warc_gz_file, hloop]
  · intro st hloop h0
    simp [process_warc_gz_file, hloop, h0]

theorem checkpoint_append_iff_completion_witness :
    process_warc_gz_file ⟨[], none, none, true, true⟩ ["a.warc.gz"] "b.warc.gz"
      [.response ⟨"http://x/", "x", "", none⟩]
      = (.ok ⟨1, 1, 0, 0⟩, ["a.warc.gz", "b.warc.gz"]) :=
  (checkpoint_append_iff_completion _ ["a.warc.gz"] "b.warc.gz" _).1
    ⟨1, 1, 0, 0⟩ rfl (by decide)

/-- C10: omitting both dates at `CommonCrawler` construction still leaves date
filtering on: the defaults are `"2019-01-01"` and `"2099-01-01"`, and any
record whose `warc-date` falls outside that default range is rejected — there
is no "no date bound, always passes" path. -/
theorem default_date_bounds_filter :
    ∀ (hosts : List String) (r : WarcRecord),
      ((CommonCrawler.init hosts none none).start_date = "2019-01-01" ∧
       (CommonCrawler.init hosts none none).end_date = "2099-01-01") ∧
      (strLt r.warcDate "2019-01-01" = true ∨ strLe "2099-01-01" r.warcDate = true →
        is_wanted_record (CommonCrawler.init hosts none none) r = false) := by
  intro hosts r
  refine ⟨⟨rfl, rfl⟩, ?_⟩
  intro h
  unfold is_wanted_record
  split
  · rfl
  · rcases h with h | h
    · have hle : strLe "2019-01-01" r.warcDate = false := by
        unfold strLe
        rw [h]
        rfl
      show (strLe "2019-01-01" r.warcDate && strLt r.warcDate "2099-01-01") = false
      rw [hle]
      rfl
    · have hlt : strLt r.warcDate "2099-01-01" = false := by
        unfold strLe at h
        cases hb : strLt r.warcDate "2099-01-01"
        · rfl
        · rw [hb] at h
          cases h
      show (strLe "2019-01-01" r.warcDate && strLt r.warcDate "2099-01-01") = false
      rw [hlt, Bool.and_false]

theorem default_date_bounds_filter_witness :
    is_wanted_record (CommonCrawler.init [] none none)
      ⟨"http://x/", "x", "2018-12-31T23:59:59Z", none⟩ = false :=
  (default_date_bounds_filter [] _).2 (Or.inl (by decide))

/-- C7: across every sequence of registrations and pops starting from a fresh
`DaemonList`, no two pending queue entries hold the same timestamp; and on any
well-formed state, inserting at a candidate timestamp that is already occupied
files the entry at the smallest unoccupied integer second greater than the
candidate. -/
theorem schedule_no_duplicate_timestamps :
    (∀ ops : List DOp, ((runOps initDaemonList ops).queue.map Prod.fst).Nodup) ∧
    (∀ (s : DaemonList) (t index : Nat), WF s → t ∈ s.queue_times →
      ∃ t2, (add_execution s t index).queue = s.queue ++ [(t2, index)] ∧
        t < t2 ∧ t2 ∉ s.queue_times ∧
        ∀ u, t < u → u < t2 → u ∈ s.queue_times) := by
  constructor
  · intro ops
    have hWF := WF_runOps ops initDaemonList ⟨rfl, List.nodup_nil⟩
    rw [← hWF.1]
    exact hWF.2
  · intro s t index hWF hmem
    obtain ⟨h1, h2, h3⟩ := newSlot_spec s t
    refine ⟨newSlot s t, rfl,
      Nat.lt_of_le_of_ne h2 (fun he => h1 (he ▸ hmem)), h1, ?_⟩
    intro u hu hu'
    exact h3 u (Nat.le_of_lt hu) hu'

theorem schedule_no_duplicate_timestamps_witness :
    (((runOps initDaemonList [DOp.addDaemon 0 5 100, DOp.addDaemon 1 5 100]).queue.map
        Prod.fst).Nodup) ∧
    (∃ t2, (add_execution ⟨[], [(5, 0), (6, 1)], [5, 6], false⟩ 5 2).queue
        = [(5, 0), (6, 1)] ++ [(t2, 2)] ∧ 5 < t2 ∧ t2 ∉ ([5, 6] : List Nat) ∧
        ∀ u, 5 < u → u < t2 → u ∈ ([5, 6] : List Nat)) :=
  ⟨schedule_no_duplicate_timestamps.1 _,
   schedule_no_duplicate_timestamps.2 ⟨[], [(5, 0), (6, 1)], [5, 6], false⟩ 5 2
     ⟨rfl, by decide⟩ (by decide)⟩

/-- C8: when a pop returns the entry `(prev, idx)` at actual run time `now`,
the re-inserted entry is filed from the candidate timestamp
`max(prev, now) + interval(idx)`: the new timestamp is at least the candidate,
equals it whenever the candidate is unoccupied, and for a late dispatch
(`prev ≤ now`) the candidate is `now + interval`, relative to the actual run
time rather than the original due time. -/
theorem rearm_candidate_spec :
    ∀ (s : DaemonList) (now : Nat) (item : Nat × Nat) (s2 : DaemonList), WF s →
      get_next_item s now = (some item, s2) →
      ∃ t2, s2.queue = (sort_queue s).queue.tail ++ [(t2, item.2)] ∧
        max item.1 now + dictGet s.daemons item.2 ≤ t2 ∧
        (max item.1 now + dictGet s.daemons item.2 ∉
            ((sort_queue s).queue.tail.map Prod.fst) →
          t2 = max item.1 now + dictGet s.daemons item.2) ∧
        (item.1 ≤ now → max item.1 now + dictGet s.daemons item.2
          = now + dictGet s.daemons item.2) := by
  intro s now item s2 hWF heq
  by_cases hstop : s.graceful_stop = true
  · simp [get_next_item, hstop] at heq
  · have hstop' : s.graceful_stop = false := by
      cases hb : s.graceful_stop
      · rfl
      · exact absurd hb hstop
    match hq : (sort_queue s).queue with
    | [] => rw [get_next_item_nil hWF hstop' hq now] at heq; simp at heq
    | it :: qrest =>
        rw [get_next_item_eq hWF hstop' hq now] at heq
        injection heq with h1 h2
        injection h1 with h1
        subst h1
        subst h2
        obtain ⟨hnot, hge, hbetween⟩ := newSlot_spec
          ⟨s.daemons, qrest, qrest.map Prod.fst, s.graceful_stop⟩
          (max it.1 now + dictGet s.daemons it.2)
        refine ⟨_, ?_, hge, ?_, fun hle => by rw [Nat.max_eq_right hle]⟩
        · simp [add_execution, hq]
        · intro hfree
          rcases Nat.eq_or_lt_of_le hge with heq2 | hlt
          · exact heq2.symm
          · exact absurd (hbetween _ (Nat.le_refl _) hlt) (by simpa [hq] using hfree)

theorem rearm_candidate_spec_witness :
    ∃ t2, (⟨[(7, 10)], [(18, 7)], [18], false⟩ : DaemonList).queue
        = (sort_queue ⟨[(7, 10)], [(5, 7)], [5], false⟩).queue.tail ++ [(t2, 7)] ∧
      18 ≤ t2 ∧
      (18 ∉ ((sort_queue ⟨[(7, 10)], [(5, 7)], [5], false⟩).queue.tail.map Prod.fst) →
        t2 = 18) ∧
      (5 ≤ 8 → (18 : Nat) = 18) :=
  rearm_candidate_spec ⟨[(7, 10)], [(5, 7)], [5], false⟩ 8 (5, 7)
    ⟨[(7, 10)], [(18, 7)], [18], false⟩ ⟨rfl, by decide⟩ rfl

/-- C9, counterexample: with a registration interleaved between pops, the
timestamps returned for dispatch are not non-decreasing — after dispatching
entries at 10 and 110, registering a new daemon at time 12 makes the next pop
return an entry at 12, strictly smaller than the 110 already dispatched. -/
theorem dispatch_order_counterexample :
    popsOf initDaemonList
        [DOp.addDaemon 0 100 10, DOp.pop 10, DOp.pop 11, DOp.addDaemon 1 5 12, DOp.pop 12]
      = [(10, 0), (110, 0), (12, 1)] ∧
    ¬ List.Chain' (fun a b : Nat => a ≤ b)
        ((popsOf initDaemonList
            [DOp.addDaemon 0 100 10, DOp.pop 10, DOp.pop 11, DOp.addDaemon 1 5 12,
              DOp.pop 12]).map Prod.fst) := by
  constructor
  · decide
  · intro hchain
    have hmap : (popsOf initDaemonList
        [DOp.addDaemon 0 100 10, DOp.pop 10, DOp.pop 11, DOp.addDaemon 1 5 12,
          DOp.pop 12]).map Prod.fst = [10, 110, 12] := by decide
    rw [hmap] at hchain
    obtain ⟨-, h2⟩ := List.chain'_cons.mp hchain
    obtain ⟨h3, -⟩ := List.chain'_cons.mp h2
    omega

/-- C9, amended: each pop returns a minimum-timestamp pending entry (a pending
entry is never returned while another pending entry with a strictly smaller
timestamp exists), and along any sequence of pops and re-arms with no
interleaved registration the dispatched timestamps are non-decreasing; a
registration performed between pops can break the global ordering, as a new
entry is scheduled at the current time. -/
theorem dispatch_min_and_monotone_amended :
    (∀ (s : DaemonList) (now : Nat) (item : Nat × Nat) (s2 : DaemonList), WF s →
      get_next_item s now = (some item, s2) → ∀ e ∈ s.queue, item.1 ≤ e.1) ∧
    (∀ (s : DaemonList) (nows : List Nat), WF s →
      List.Chain' (fun a b : Nat => a ≤ b) ((iterPops s nows).map Prod.fst)) :=
  ⟨fun _ _ _ _ hWF heq => pop_min hWF heq,
   fun s nows hWF => (iterPops_bound nows s 0 hWF (fun _ _ => Nat.zero_le _)).2⟩

theorem dispatch_min_and_monotone_witness :
    (∀ e ∈ ([(3, 0), (7, 1)] : List (Nat × Nat)), (3, 0).1 ≤ e.1) ∧
    List.Chain' (fun a b : Nat => a ≤ b)
      ((iterPops ⟨[(0, 4), (1, 9)], [(3, 0), (7, 1)], [3, 7], false⟩ [3, 5]).map
        Prod.fst) :=
  ⟨dispatch_min_and_monotone_amended.1
      ⟨[(0, 4), (1, 9)], [(3, 0), (7, 1)], [3, 7], false⟩ 3 (3, 0) _
      ⟨rfl, by decide⟩ rfl,
   dispatch_min_and_monotone_amended.2
      ⟨[(0, 4), (1, 9)], [(3, 0), (7, 1)], [3, 7], false⟩ [3, 5] ⟨rfl, by decide⟩⟩

end NewsPlease
